import Mathlib

/-!
Verification of `rrr_raf_tal.py`.

A shallow embedding, in Lean 4, of the pure computational core of the river
visualization program `rrr_raf_tal.py`, together with theorems settling the
specification claims about it.

Modelling conventions:
* Python `int` values (river reach identifiers, counts) are `Int`
  (counts that the source only compares against list lengths are `Nat`).
* Python `float` values (distances, discharges) are modelled as `ℚ`;
  the claims under study only concern the order/arithmetic relations the
  source applies to these values.
* Python `dict` is modelled as an association list with overwrite-in-place
  insertion (matching CPython's insertion-order preserving semantics).
* Fallible code (out-of-range indexing, unbounded loops) is modelled with
  `Option`: `none` models an uncaught `IndexError` or running out of fuel.
* GUI side effects are modelled by explicit state passing over a small
  record of the module-level variables the claims mention, and `print`
  calls are modelled by returning a list of emitted messages.
-/

namespace RRR

/-- The connectivity mapping: reach id to its list from which the walk takes
the first entry (Python `connectivity` dict, an association list model). -/
abbrev Conn := List (Int × List Int)

/-- Python `connectivity[k]` guarded by `k in connectivity`:
first matching entry of the association list. -/
def connLookup (conn : Conn) (k : Int) : Option (List Int) :=
  (conn.find? (fun p => p.1 == k)).map (fun p => p.2)

/-- Embedding of `choose_downstream` (src lines 316-331), made explicit in
the mutated global `downstream_rivers_list` (argument `st`) and in a fuel
parameter bounding the number of loop iterations.  `none` models either an
uncaught `IndexError` (from `connectivity[rivid][0]` on an empty list) or
insufficient fuel; `some st'` is the final value of
`downstream_rivers_list`, which the Python function returns. -/
def choose_downstream (conn : Conn) : Nat → List Int → Int → Option (List Int)
  | 0, _, _ => none
  | fuel + 1, st, rivid =>
    match connLookup conn rivid with
    | none => some (st ++ [rivid])
    | some [] => none
    | some (next :: _) => choose_downstream conn fuel (st ++ [rivid]) next

/-- One step of the walk `rivid = connectivity[rivid][0]`: defined exactly
when `rivid` is a key whose list is nonempty. -/
def fstep (conn : Conn) (r : Int) : Option Int :=
  (connLookup conn r).bind List.head?

/-- The sequence of ids visited when repeatedly following first entries from
`r`: `traceFrom conn r n` is the id reached after `n` steps, `none` once a
step is impossible. -/
def traceFrom (conn : Conn) (r : Int) : Nat → Option Int
  | 0 => some r
  | n + 1 => (traceFrom conn r n).bind (fstep conn)

/-- The claim's precondition: following first entries from `r` never
revisits an id.  Bounded at `conn.length + 2` positions, which suffices (and
is decidable): a longer repeat-free walk is impossible over the finitely
many keys of `conn`. -/
def noRevisit (conn : Conn) (r : Int) : Prop :=
  ∀ i < conn.length + 2, ∀ j < conn.length + 2, i ≠ j →
    (traceFrom conn r i).isSome → traceFrom conn r i ≠ traceFrom conn r j

instance (conn : Conn) (r : Int) : Decidable (noRevisit conn r) := by
  unfold noRevisit; infer_instance

/-- Every id visited from `r` that is a key of the mapping has a nonempty
list, so `connectivity[rivid][0]` never raises `IndexError` on the walk. -/
def noEmptyLists (conn : Conn) (r : Int) : Prop :=
  ∀ i < conn.length + 1, (traceFrom conn r i).bind (connLookup conn) ≠ some []

instance (conn : Conn) (r : Int) : Decidable (noEmptyLists conn r) := by
  unfold noEmptyLists; infer_instance

/-- `river_lengths[shp_comids.index(rivid)]`: shapefile length of reach `r`
(first occurrence of `r` in `shp`; only used after `r ∈ shp` is checked). -/
def lengthOf (shp : List Int) (lens : List ℚ) (r : Int) : ℚ :=
  lens.getD (shp.indexOf r) 0

/-- The loop of `get_rivids_along_downstream` (src lines 289-313), with the
accumulated `rivids`, `dists` and `net_distance` made explicit. -/
def get_rivids_aux (shp : List Int) (lens : List ℚ) (num : Nat) (dist : ℚ) :
    List Int → List Int → List ℚ → ℚ → List Int × List ℚ
  | [], rivids, dists, _ => (rivids, dists)
  | r :: rest, rivids, dists, net =>
    if num ≤ rivids.length then (rivids, dists)
    else if r ∈ shp then
      let net' := net + lengthOf shp lens r
      if (rivids.length : ℚ) * dist < net' then
        get_rivids_aux shp lens num dist rest (rivids ++ [r]) (dists ++ [net']) net'
      else
        get_rivids_aux shp lens num dist rest rivids dists net'
    else (rivids, dists)

/-- Embedding of `get_rivids_along_downstream` (src lines 289-313): walks
`downstream` (the global `downstream_rivers_list`), accumulating shapefile
lengths, and collects ids/distances each time the running total exceeds
`len(rivids) * dist`. -/
def get_rivids_along_downstream (downstream shp : List Int) (lens : List ℚ)
    (num : Nat) (dist : ℚ) : List Int × List ℚ :=
  get_rivids_aux shp lens num dist downstream [] [] 0

/-! ## Command-line argument handling (src lines 119-121 and 152-163) -/

def default_connectivity_f_path : String :=
  "../San_Gaud_data/rapid_connect_San_Guad.csv"

def default_sf_path : String :=
  "../San_Gaud_data/NHDFlowline_San_Guad/NHDFlowline_San_Guad.shp"

def default_Qout_f_path : String := "../San_Gaud_data/Qout_San_Guad_exp00.nc"

/-- Outcome of the argument-handling block: process exit with a message and
exit code, an uncaught `IndexError` recording the out-of-range index of
`sys.argv` that was read, or the three file paths that the program goes on
to load. -/
inductive CliResult where
  | exitWith (msg : String) (code : Nat)
  | indexError (idx : Nat)
  | ok (conn sf q : String)
deriving DecidableEq, Repr

/-- Embedding of src lines 153-163, with `argv` the full `sys.argv`
(program name at index 0).  `IS_arg = len(sys.argv)`; reads of `sys.argv`
at an out-of-range index become `CliResult.indexError`. -/
def getCliPaths (argv : List String) : CliResult :=
  if argv.length > 4 then
    .exitWith "Error: A maximum of 3 arguments can be used." 22
  else if argv.length > 1 then
    match argv.get? 2 with
    | none => .indexError 2
    | some c =>
      if argv.length > 2 then
        match argv.get? 3 with
        | none => .indexError 3
        | some s =>
          if argv.length > 3 then
            match argv.get? 4 with
            | none => .indexError 4
            | some q => .ok c s q
          else .ok c s default_Qout_f_path
      else .ok c default_sf_path default_Qout_f_path
  else .ok default_connectivity_f_path default_sf_path default_Qout_f_path

/-! ## UI state and callbacks -/

/-- The module-level UI state the claims mention: the labels of the open
matplotlib figures, the global `downstream_rivers_list`, and the global
`offsets` (coordinates of the last picked point). -/
structure UIState where
  figLabels : List String
  downstream : List Int
  offsets : List ℚ
deriving DecidableEq, Repr

/-- Control flow of `show_propagation` (src lines 493-571) at the level of
`UIState`: return unchanged if the window is already open or the downstream
list is empty, otherwise open the plot window (the plotting body touches no
other modelled state). -/
def show_propagation (s : UIState) : UIState :=
  if "River Propagation Time" ∈ s.figLabels then s
  else if s.downstream = [] then s
  else { s with figLabels := s.figLabels ++ ["River Propagation Time"] }

/-- Control flow of `show_event_duration` (src lines 573-632): as for
`show_propagation`; the call to `get_rivids_along_downstream` made before
the emptiness check mutates nothing. -/
def show_event_duration (s : UIState) : UIState :=
  if "Peak Duration" ∈ s.figLabels then s
  else if s.downstream = [] then s
  else { s with figLabels := s.figLabels ++ ["Peak Duration"] }

/-- Control flow of `show_discharge_over_time` (src lines 635-700). -/
def show_discharge_over_time (s : UIState) : UIState :=
  if "River Discharges Over Time" ∈ s.figLabels then s
  else if s.downstream = [] then s
  else { s with figLabels := s.figLabels ++ ["River Discharges Over Time"] }

/-- Embedding of `reset` (src lines 796-829): empties
`downstream_rivers_list` and `offsets` and closes every figure other than
the main "River Network" window (figure 1). -/
def reset (s : UIState) : UIState :=
  { figLabels := s.figLabels.filter (fun l => l == "River Network"),
    downstream := [], offsets := [] }

/-- Messages printed by the text-box callbacks, one constructor per
`print` call site. -/
inductive Printed where
  | showing_reaches (n : Int)
  | error_zero_dist
  | maintaining_dist (d : ℚ)
  | error_threshold_high
  | error_threshold_low
  | setting_threshold (s : String)
deriving DecidableEq, Repr

/-- Embedding of `update_num_reaches` (src lines 438-461).  `parsed` is the
result of Python `int(b_num_reaches.text)`: `none` when the text does not
parse (`ValueError`, caught and replaced by 0).  Returns the new value of
the global `num_reaches` and the messages printed. -/
def update_num_reaches (num_reaches : Int) (parsed : Option Int) :
    Int × List Printed :=
  let temp := parsed.getD 0
  if temp < 0 then (0, [.showing_reaches 0])
  else if num_reaches = temp then (num_reaches, [])
  else (temp, [.showing_reaches temp])

/-- `default_reach_dist = float("117")` (src lines 136-138). -/
def default_reach_dist : ℚ := 117

/-- Embedding of `update_reach_dist` (src lines 463-490).  `parsed` is the
result of Python `float(b_reach_dist.text)`: `none` when the text does not
parse (`ValueError`, caught and replaced by `default_reach_dist`).  Returns
the new value of the global `reach_dist` and the messages printed. -/
def update_reach_dist (reach_dist : ℚ) (parsed : Option ℚ) :
    ℚ × List Printed :=
  let temp := parsed.getD default_reach_dist
  if temp = 0 then
    (default_reach_dist, [.error_zero_dist, .maintaining_dist default_reach_dist])
  else if reach_dist = temp then (reach_dist, [])
  else (temp, [.maintaining_dist temp])

/-- Embedding of `set_threshold_level` (src lines 415-435).  The state is
the global string `threshold_level`; `valOf` models Python
`float(threshold_level)` (only ever applied to the current global); `text`
is the submitted text-box content.  Returns the new value of the global and
the messages printed.  The source never assigns `threshold_level`, which is
what the function's shape makes plain. -/
def set_threshold_level (threshold_level : String) (valOf : String → ℚ)
    (text : String) : String × List Printed :=
  let t0 : String × List Printed :=
    if valOf threshold_level > 100 then ("100", [.error_threshold_high])
    else if valOf threshold_level < 0 then ("0", [.error_threshold_low])
    else (text, [])
  if threshold_level = t0.1 then (threshold_level, t0.2)
  else (threshold_level, t0.2 ++ [.setting_threshold threshold_level])

/-! ## Connectivity loading (src lines 221-236) -/

/-- Python `dict` assignment `d[k] = v` on an insertion-ordered association
list: overwrite in place when the key is present, append otherwise. -/
def dictInsert (d : List (Int × List Int)) (k : Int) (v : List Int) :
    List (Int × List Int) :=
  if d.any (fun p => p.1 == k) then
    d.map (fun p => if p.1 == k then (k, v) else p)
  else d ++ [(k, v)]

/-- Embedding of the connectivity-loading loop (src lines 231-233): each CSV
row is modelled after integer parsing as the pair
`(int(row[0].replace(" ", "")), [int(d) for d in row[1:]])`, and the loop
performs `connectivity[row.1] = row.2` for each row in order. -/
def load_connectivity (rows : List (Int × List Int)) : List (Int × List Int) :=
  rows.foldl (fun acc row => dictInsert acc row.1 row.2) []

/-! ## Flow-wave propagation (src lines 524-559) -/

/-- Python `list(corr).index(max(corr))`: the index of the first occurrence
of the maximum of the list (0 on the empty list, where Python would raise). -/
def argmaxIdx (l : List ℚ) : Nat :=
  match l with
  | [] => 0
  | x :: xs => (x :: xs).indexOf (xs.foldl max x)

/-- The x-coordinates plotted by the loop of `show_propagation` for the
reaches after the first: `prev_x` starts at 0, each later reach with
discharge series `y` adds `last_x = list(corr).index(max(corr))` where
`corr = ccf(x0, y)`, and the point is plotted at `prev_x + last_x`.  `ccf`
(the external `statsmodels` cross-correlation function) is an opaque
parameter; `x0` is the first selected reach's series. -/
def show_propagation_xs (ccf : List ℚ → List ℚ → List ℚ) (x0 : List ℚ) :
    List (List ℚ) → Nat → List Nat
  | [], _ => []
  | y :: rest, prev_x =>
    let last_x := argmaxIdx (ccf x0 y)
    (prev_x + last_x) :: show_propagation_xs ccf x0 rest (prev_x + last_x)

/-! ## Theorems -/

/-- C3: the claim says 1 to 3 positional arguments are accepted and used in
order with defaults for the rest.  The code instead reads `sys.argv[2]`,
`sys.argv[3]` and `sys.argv[4]` (src lines 159-163), one past each intended
index, so every invocation with 1, 2 or 3 positional arguments ends in an
uncaught `IndexError`; this contradicts the program's own argument
documentation (src lines 146-149).  This theorem evaluates the embedded
argument handling at the three failing inputs. -/
theorem cli_args_index_error :
    getCliPaths ["rrr_raf_tal.py", "conn.csv"] = .indexError 2 ∧
    getCliPaths ["rrr_raf_tal.py", "conn.csv", "shape.shp"] = .indexError 3 ∧
    getCliPaths ["rrr_raf_tal.py", "conn.csv", "shape.shp", "Qout.nc"] =
      .indexError 4 :=
  ⟨rfl, rfl, rfl⟩

/-- C4: with more than three positional arguments (so `len(sys.argv) > 4`),
the program prints the fixed message and exits with code 22, before any
input file is touched (the block at src lines 153-156 precedes every
loader, and the embedded result is an exit, not a set of paths to load). -/
theorem cli_too_many_args_exit (argv : List String) (h : 4 < argv.length) :
    getCliPaths argv =
      .exitWith "Error: A maximum of 3 arguments can be used." 22 := by
  unfold getCliPaths
  rw [if_pos h]

/-- Witness for `cli_too_many_args_exit` at a concrete five-element argv. -/
theorem cli_too_many_args_exit_witness :
    getCliPaths ["p", "a", "b", "c", "d"] =
      .exitWith "Error: A maximum of 3 arguments can be used." 22 :=
  cli_too_many_args_exit ["p", "a", "b", "c", "d"] (by decide)

/-- C5: when `downstream_rivers_list` is empty, each of the three
derived-plot callbacks returns before creating its plot window and leaves
the modelled program state unchanged. -/
theorem show_plots_empty_downstream_noop (s : UIState)
    (h : s.downstream = []) :
    show_propagation s = s ∧ show_event_duration s = s ∧
      show_discharge_over_time s = s := by
  refine ⟨?_, ?_, ?_⟩ <;>
    simp [show_propagation, show_event_duration, show_discharge_over_time, h]

/-- Witness for `show_plots_empty_downstream_noop` at a concrete state. -/
theorem show_plots_empty_downstream_noop_witness :
    show_propagation ⟨["River Network"], [], []⟩ = ⟨["River Network"], [], []⟩ ∧
    show_event_duration ⟨["River Network"], [], []⟩ = ⟨["River Network"], [], []⟩ ∧
    show_discharge_over_time ⟨["River Network"], [], []⟩ =
      ⟨["River Network"], [], []⟩ :=
  show_plots_empty_downstream_noop ⟨["River Network"], [], []⟩ rfl

/-- C9: `set_threshold_level` never assigns the global `threshold_level`
(src lines 415-435 only ever assign `threshold_level_temp`), so the
threshold stays at its initial value `"90"` no matter what sequence of
texts is submitted. -/
theorem set_threshold_level_frame :
    (∀ (tl : String) (valOf : String → ℚ) (text : String),
      (set_threshold_level tl valOf text).1 = tl) ∧
    (∀ (valOf : String → ℚ) (texts : List String),
      texts.foldl (fun s t => (set_threshold_level s valOf t).1) "90" = "90") := by
  have h1 : ∀ (tl : String) (valOf : String → ℚ) (text : String),
      (set_threshold_level tl valOf text).1 = tl := by
    intro tl valOf text
    unfold set_threshold_level
    dsimp only
    split_ifs <;> rfl
  refine ⟨h1, ?_⟩
  intro valOf texts
  induction texts with
  | nil => rfl
  | cons t ts ih => rw [List.foldl_cons, h1]; exact ih

/-- C10 (part of statement): `choose_downstream` only ever appends to
`downstream_rivers_list`, so the list before the call is a prefix of the
list after the call; the plot callbacks never touch the list, and `reset`
returns it to empty. -/
theorem choose_downstream_accumulates :
    (∀ (conn : Conn) (fuel : Nat) (st : List Int) (r : Int) (st' : List Int),
      choose_downstream conn fuel st r = some st' → st <+: st') ∧
    (∀ s : UIState, (reset s).downstream = [] ∧
      (show_propagation s).downstream = s.downstream ∧
      (show_event_duration s).downstream = s.downstream ∧
      (show_discharge_over_time s).downstream = s.downstream) := by
  constructor
  · intro conn fuel
    induction fuel with
    | zero => intro st r st' h; simp [choose_downstream] at h
    | succ n ih =>
      intro st r st' h
      unfold choose_downstream at h
      cases hc : connLookup conn r with
      | none =>
        rw [hc] at h
        exact ⟨[r], by simpa using h⟩
      | some l =>
        cases l with
        | nil => rw [hc] at h; exact absurd h (by simp)
        | cons next rest =>
          rw [hc] at h
          obtain ⟨t, ht⟩ := ih (st ++ [r]) next st' h
          exact ⟨r :: t, by rw [← ht]; simp⟩
  · intro s
    refine ⟨rfl, ?_, ?_, ?_⟩ <;>
      simp only [show_propagation, show_event_duration,
        show_discharge_over_time] <;> split <;> first | rfl | split <;> rfl

/-- Witness for `choose_downstream_accumulates` on a concrete call: the
previously selected path `[9]` is a prefix of the list after selecting
reach 7. -/
theorem choose_downstream_accumulates_witness :
    [(9 : Int)] <+: [9, 7] :=
  choose_downstream_accumulates.1 [] 1 [9] 7 [9, 7] rfl

/-- C7 counterexample: a malformed submission in the distance text box when
`reach_dist` already equals the default (its initial state, src line 138)
falls back silently: no message of any kind is printed, contradicting the
claim that a warning accompanies every malformed-input fallback.  The same
happens in the number-of-reaches box once `num_reaches` is 0. -/
theorem update_callbacks_silent_counterexample :
    update_reach_dist 117 none = (117, []) ∧
    update_num_reaches 0 none = (0, []) := by
  constructor
  · simp [update_reach_dist, default_reach_dist]
  · simp [update_num_reaches]

/-- C7 (amended): a malformed submission makes `update_num_reaches` fall
back to 0 and `update_reach_dist` fall back to the initial default
distance; a message is printed exactly when the fallback value differs from
the current setting — when they already agree, the callback returns
silently. -/
theorem update_callbacks_fallback_spec (curN : Int) (curD : ℚ) :
    ((update_num_reaches curN none).1 = 0 ∧
      ((update_num_reaches curN none).2 = [] ↔ curN = 0)) ∧
    ((update_reach_dist curD none).1 = default_reach_dist ∧
      ((update_reach_dist curD none).2 = [] ↔ curD = default_reach_dist)) := by
  constructor
  · by_cases h : curN = 0 <;>
      simp [update_num_reaches, h]
  · by_cases h : curD = (117 : ℚ) <;>
      simp [update_reach_dist, default_reach_dist, h]

/-! Helper lemmas about Python `max` / `list.index` and the propagation
loop. -/

theorem foldl_max_le_self (xs : List ℚ) : ∀ a : ℚ, a ≤ xs.foldl max a := by
  induction xs with
  | nil => intro a; exact le_refl a
  | cons x xs ih =>
    intro a
    exact le_trans (le_max_left a x) (ih (max a x))

theorem le_foldl_max_of_mem (xs : List ℚ) :
    ∀ (a x : ℚ), x ∈ xs → x ≤ xs.foldl max a := by
  induction xs with
  | nil => intro a x hx; exact absurd hx (List.not_mem_nil x)
  | cons y ys ih =>
    intro a x hx
    rcases List.mem_cons.mp hx with h | h
    · subst h
      exact le_trans (le_max_right a x) (foldl_max_le_self ys (max a x))
    · exact ih (max a y) x h

theorem foldl_max_mem (xs : List ℚ) :
    ∀ a : ℚ, xs.foldl max a = a ∨ xs.foldl max a ∈ xs := by
  induction xs with
  | nil => intro a; exact Or.inl rfl
  | cons x xs ih =>
    intro a
    rw [List.foldl_cons]
    rcases ih (max a x) with h | h
    · rw [h]
      rcases max_choice a x with h' | h'
      · exact Or.inl h'
      · rw [h']; exact Or.inr (List.mem_cons_self x xs)
    · exact Or.inr (List.mem_cons_of_mem x h)

theorem argmaxIdx_spec (l : List ℚ) (hne : l ≠ []) :
    argmaxIdx l < l.length ∧
      ∀ i < l.length, l.getD i 0 ≤ l.getD (argmaxIdx l) 0 := by
  match l with
  | [] => exact absurd rfl hne
  | x :: xs =>
    have hmem : xs.foldl max x ∈ x :: xs := by
      rcases foldl_max_mem xs x with h | h
      · rw [h]; exact List.mem_cons_self x xs
      · exact List.mem_cons_of_mem x h
    have hidx : (x :: xs).indexOf (xs.foldl max x) < (x :: xs).length :=
      List.indexOf_lt_length.mpr hmem
    refine ⟨hidx, ?_⟩
    intro i hi
    rw [List.getD_eq_getElem _ _ hi,
      List.getD_eq_getElem _ _ (by simpa [argmaxIdx] using hidx)]
    have hval : (x :: xs).get ⟨(x :: xs).indexOf (xs.foldl max x), hidx⟩ =
        xs.foldl max x := List.indexOf_get hidx
    have hle : (x :: xs).get ⟨i, hi⟩ ≤ xs.foldl max x := by
      rcases List.mem_cons.mp (List.get_mem (x :: xs) i hi) with h | h
      · rw [h]; exact foldl_max_le_self xs x
      · exact le_foldl_max_of_mem xs x _ h
    simpa [argmaxIdx, List.get_eq_getElem, hval] using hle

theorem show_propagation_xs_getD (ccf : List ℚ → List ℚ → List ℚ)
    (x0 : List ℚ) :
    ∀ (ys : List (List ℚ)) (p k : Nat), k < ys.length →
      (show_propagation_xs ccf x0 ys p).getD k 0 =
        p + ((ys.map fun y => argmaxIdx (ccf x0 y)).take (k + 1)).sum := by
  intro ys
  induction ys with
  | nil => intro p k hk; exact absurd hk (by simp)
  | cons y rest ih =>
    intro p k hk
    cases k with
    | zero => simp [show_propagation_xs]
    | succ k =>
      have hk' : k < rest.length := by simpa using hk
      simp only [show_propagation_xs, List.getD_cons_succ, List.map_cons,
        List.take_succ_cons, List.sum_cons]
      rw [ih (p + argmaxIdx (ccf x0 y)) k hk']
      omega

/-- C8: in the flow-wave propagation plot, the delay added at each selected
reach after the first is `list(corr).index(max(corr))` — the index of the
(first) maximum of the cross-correlation of the first reach's discharge
series with that reach's series — and the plotted time coordinate of the
k-th such reach is the cumulative sum of the first k+1 delays.  `ccf` is
the external cross-correlation routine, kept opaque; `argmaxIdx` is proved
to return an index of a maximal element. -/
theorem show_propagation_delay_spec :
    (∀ (ccf : List ℚ → List ℚ → List ℚ) (x0 : List ℚ) (ys : List (List ℚ))
      (k : Nat), k < ys.length →
      (show_propagation_xs ccf x0 ys 0).getD k 0 =
        ((ys.map fun y => argmaxIdx (ccf x0 y)).take (k + 1)).sum) ∧
    (∀ l : List ℚ, l ≠ [] →
      argmaxIdx l < l.length ∧
        ∀ i < l.length, l.getD i 0 ≤ l.getD (argmaxIdx l) 0) := by
  constructor
  · intro ccf x0 ys k hk
    simpa using show_propagation_xs_getD ccf x0 ys 0 k hk
  · exact argmaxIdx_spec

/-- Witness for `show_propagation_delay_spec` at concrete series. -/
theorem show_propagation_delay_spec_witness :
    ((show_propagation_xs (fun _ y => y) [] [[1, 3, 2], [0, 5]] 0).getD 1 0 =
      ((([[1, 3, 2], [0, 5]] : List (List ℚ)).map
        fun y => argmaxIdx ((fun _ y => y) ([] : List ℚ) y)).take 2).sum) ∧
    (argmaxIdx [1, 3, 2] < ([1, 3, 2] : List ℚ).length ∧
      ∀ i < ([1, 3, 2] : List ℚ).length,
        ([1, 3, 2] : List ℚ).getD i 0 ≤
          ([1, 3, 2] : List ℚ).getD (argmaxIdx [1, 3, 2]) 0) :=
  ⟨show_propagation_delay_spec.1 (fun _ y => y) [] [[1, 3, 2], [0, 5]] 1
      (by decide),
    show_propagation_delay_spec.2 [1, 3, 2] (by decide)⟩

/-! Helper lemmas about the Python-dict model and the connectivity
loader. -/

theorem dictInsert_keys (d : List (Int × List Int)) (k : Int) (v : List Int) :
    (dictInsert d k v).map Prod.fst =
      if k ∈ d.map Prod.fst then d.map Prod.fst
      else d.map Prod.fst ++ [k] := by
  have hany : (d.any fun p => p.1 == k) = true ↔ k ∈ d.map Prod.fst := by
    rw [List.any_eq_true]
    simp only [beq_iff_eq, List.mem_map]
  unfold dictInsert
  by_cases h : k ∈ d.map Prod.fst
  · rw [if_pos (hany.mpr h), if_pos h, List.map_map]
    refine List.map_congr_left ?_
    intro p _
    by_cases hp : p.1 = k
    · rw [Function.comp_apply, if_pos (show (p.1 == k) = true by simpa using hp)]
      exact hp.symm
    · rw [Function.comp_apply, if_neg (show ¬(p.1 == k) = true by simpa using hp)]
  · rw [if_neg (fun hc => h (hany.mp hc)), if_neg h, List.map_append]
    rfl

theorem find?_key_overwrite (k : Int) (v : List Int) :
    ∀ d : List (Int × List Int),
      (d.map fun p => if p.1 == k then (k, v) else p).find?
          (fun p => p.1 == k) =
        if d.any (fun p => p.1 == k) then some (k, v) else none := by
  intro d
  induction d with
  | nil => rfl
  | cons p d ih =>
    by_cases h : p.1 = k
    · have hb : (p.1 == k) = true := by simpa using h
      rw [List.map_cons, if_pos hb, List.find?_cons, List.any_cons, hb]
      simp
    · have hb : (p.1 == k) = false := by simpa using h
      rw [List.map_cons, if_neg (show ¬(p.1 == k) = true by simp [hb]),
        List.find?_cons, List.any_cons, hb, Bool.false_or]
      simpa [hb] using ih

theorem find?_key_other (k : Int) (v : List Int) (k' : Int) (h : k' ≠ k) :
    ∀ d : List (Int × List Int),
      (d.map fun p => if p.1 == k then (k, v) else p).find?
          (fun p => p.1 == k') = d.find? (fun p => p.1 == k') := by
  intro d
  induction d with
  | nil => rfl
  | cons p d ih =>
    by_cases hp : p.1 = k
    · have hk1 : ((k, v).1 == k') = false := by
        simp only [beq_eq_false_iff_ne, ne_eq]
        exact fun hc => h hc.symm
      have hk2 : (p.1 == k') = false := by
        simp only [beq_eq_false_iff_ne, ne_eq, hp]
        exact fun hc => h hc.symm
      rw [List.map_cons, if_pos (show (p.1 == k) = true by simpa using hp),
        List.find?_cons, List.find?_cons, hk1, hk2]
      exact ih
    · rw [List.map_cons, if_neg (show ¬(p.1 == k) = true by simpa using hp),
        List.find?_cons, List.find?_cons]
      cases hk' : (p.1 == k') with
      | true => rfl
      | false => exact ih

theorem connLookup_dictInsert_self (d : List (Int × List Int)) (k : Int)
    (v : List Int) : connLookup (dictInsert d k v) k = some v := by
  unfold dictInsert connLookup
  by_cases h : (d.any fun p => p.1 == k) = true
  · rw [if_pos h, find?_key_overwrite, if_pos h]
    rfl
  · rw [if_neg h, List.find?_append]
    have hnone : d.find? (fun p => p.1 == k) = none := by
      rw [List.find?_eq_none]
      intro p hp
      simpa using fun hc =>
        h (List.any_eq_true.mpr ⟨p, hp, by simpa using hc⟩)
    rw [hnone]
    rw [List.find?_cons]
    simp [connLookup]

theorem connLookup_dictInsert_other (d : List (Int × List Int)) (k : Int)
    (v : List Int) (k' : Int) (h : k' ≠ k) :
    connLookup (dictInsert d k v) k' = connLookup d k' := by
  unfold dictInsert connLookup
  by_cases hany : (d.any fun p => p.1 == k) = true
  · rw [if_pos hany, find?_key_other k v k' h]
  · rw [if_neg hany, List.find?_append]
    have hlast : ([(k, v)].find? fun p => p.1 == k') = none := by
      have hb : ((k, v).1 == k') = false := by
        simp only [beq_eq_false_iff_ne, ne_eq]
        exact fun hc => h hc.symm
      rw [List.find?_cons, hb]
      rfl
    rw [hlast]
    cases d.find? (fun p => p.1 == k') <;> rfl

theorem dictInsert_mem (d : List (Int × List Int)) (k : Int) (v : List Int) :
    ∀ p ∈ dictInsert d k v, p ∈ d ∨ p = (k, v) := by
  intro p hp
  unfold dictInsert at hp
  by_cases hany : (d.any fun q => q.1 == k) = true
  · rw [if_pos hany] at hp
    rcases List.mem_map.mp hp with ⟨q, hq, he⟩
    by_cases hqk : q.1 = k
    · right; rw [← he]; simp [hqk]
    · left; rw [← he]; simpa [hqk] using hq
  · rw [if_neg hany] at hp
    rcases List.mem_append.mp hp with h | h
    · exact Or.inl h
    · exact Or.inr (by simpa using h)

theorem dictInsert_nodup_keys (d : List (Int × List Int)) (k : Int)
    (v : List Int) (h : (d.map Prod.fst).Nodup) :
    ((dictInsert d k v).map Prod.fst).Nodup := by
  rw [dictInsert_keys]
  by_cases hm : k ∈ d.map Prod.fst
  · rwa [if_pos hm]
  · rw [if_neg hm]
    simp [List.nodup_append, h, hm]

theorem load_connectivity_concat (rows : List (Int × List Int))
    (row : Int × List Int) :
    load_connectivity (rows ++ [row]) =
      dictInsert (load_connectivity rows) row.1 row.2 := by
  simp [load_connectivity, List.foldl_append]

theorem load_connectivity_keys_mem (rows : List (Int × List Int)) :
    ∀ k, k ∈ (load_connectivity rows).map Prod.fst ↔
      k ∈ rows.map Prod.fst := by
  induction rows using List.reverseRecOn with
  | nil => simp [load_connectivity]
  | append_singleton rows row ih =>
    intro k
    rw [load_connectivity_concat, dictInsert_keys, List.map_append]
    by_cases hm : row.1 ∈ (load_connectivity rows).map Prod.fst
    · rw [if_pos hm]
      constructor
      · intro hk
        exact List.mem_append.mpr (Or.inl ((ih k).mp hk))
      · intro hk
        rcases List.mem_append.mp hk with h | h
        · exact (ih k).mpr h
        · have hk1 : k = row.1 := by simpa using h
          rw [hk1]
          exact hm
    · rw [if_neg hm]
      simp [ih k]

theorem load_connectivity_nodup_keys (rows : List (Int × List Int)) :
    ((load_connectivity rows).map Prod.fst).Nodup := by
  induction rows using List.reverseRecOn with
  | nil => simp [load_connectivity]
  | append_singleton rows row ih =>
    rw [load_connectivity_concat]
    exact dictInsert_nodup_keys _ _ _ ih

theorem load_connectivity_mem (rows : List (Int × List Int)) :
    ∀ p ∈ load_connectivity rows, p ∈ rows := by
  induction rows using List.reverseRecOn with
  | nil => simp [load_connectivity]
  | append_singleton rows row ih =>
    intro p hp
    rw [load_connectivity_concat] at hp
    rcases dictInsert_mem _ _ _ p hp with h | h
    · exact List.mem_append.mpr (Or.inl (ih p h))
    · rw [h]
      exact List.mem_append.mpr (Or.inr (by simp))

theorem load_connectivity_length (rows : List (Int × List Int)) :
    (load_connectivity rows).length = (rows.map Prod.fst).dedup.length := by
  have hperm : List.Perm ((load_connectivity rows).map Prod.fst)
      ((rows.map Prod.fst).dedup) := by
    rw [List.perm_ext_iff_of_nodup (load_connectivity_nodup_keys rows)
      (List.nodup_dedup _)]
    intro a
    rw [List.mem_dedup]
    exact load_connectivity_keys_mem rows a
  have := hperm.length_eq
  simpa using this

theorem load_connectivity_lookup (rows : List (Int × List Int))
    (h : (rows.map Prod.fst).Nodup) :
    ∀ row ∈ rows, connLookup (load_connectivity rows) row.1 = some row.2 := by
  induction rows using List.reverseRecOn with
  | nil => simp
  | append_singleton rows row ih =>
    rw [List.map_append, List.nodup_append] at h
    obtain ⟨h1, -, h3⟩ := h
    intro q hq
    rw [load_connectivity_concat]
    rcases List.mem_append.mp hq with hmem | hmem
    · have hne : q.1 ≠ row.1 := by
        intro he
        exact h3 (List.mem_map_of_mem Prod.fst hmem) (by simp [he])
      rw [connLookup_dictInsert_other _ _ _ _ hne]
      exact ih h1 q hmem
    · have hqr : q = row := by simpa using hmem
      subst hqr
      exact connLookup_dictInsert_self _ _ _

/-- C6: loading the connectivity CSV (each row modelled post-parsing as its
integer first column paired with the list of integers of the remaining
columns) produces a mapping in which every entry is one of the rows, whose
size is the number of distinct first-column ids, and which, when the
first-column ids are distinct, maps every row's id to exactly that row's
remaining columns. -/
theorem connectivity_load_spec (rows : List (Int × List Int)) :
    (load_connectivity rows).length = (rows.map Prod.fst).dedup.length ∧
    (∀ p ∈ load_connectivity rows, p ∈ rows) ∧
    ((rows.map Prod.fst).Nodup →
      ∀ row ∈ rows,
        connLookup (load_connectivity rows) row.1 = some row.2) :=
  ⟨load_connectivity_length rows, load_connectivity_mem rows,
    load_connectivity_lookup rows⟩

/-- Witness for `connectivity_load_spec` on a concrete two-row table. -/
theorem connectivity_load_spec_witness :
    (load_connectivity [(1, [2, 3]), (4, [])]).length =
      (([(1, [2, 3]), (4, [])] : List (Int × List Int)).map
        Prod.fst).dedup.length ∧
    connLookup (load_connectivity [(1, [2, 3]), (4, [])]) 1 = some [2, 3] :=
  ⟨(connectivity_load_spec [(1, [2, 3]), (4, [])]).1,
    (connectivity_load_spec [(1, [2, 3]), (4, [])]).2.2 (by decide)
      (1, [2, 3]) (by decide)⟩

/-! Helper lemmas about the distance-walking loop of
`get_rivids_along_downstream`. -/

theorem get_rivids_aux_len_eq (shp : List Int) (lens : List ℚ) (num : Nat)
    (dist : ℚ) :
    ∀ (ds rivids : List Int) (dists : List ℚ) (net : ℚ),
      rivids.length = dists.length →
      (get_rivids_aux shp lens num dist ds rivids dists net).1.length =
        (get_rivids_aux shp lens num dist ds rivids dists net).2.length := by
  intro ds
  induction ds with
  | nil => intro rivids dists net h; simpa [get_rivids_aux] using h
  | cons r rest ih =>
    intro rivids dists net h
    unfold get_rivids_aux
    split_ifs with h1 h2
    · exact h
    · dsimp only
      split_ifs with h3
      · exact ih _ _ _ (by simp [h])
      · exact ih _ _ _ h
    · exact h

theorem get_rivids_aux_len_le (shp : List Int) (lens : List ℚ) (num : Nat)
    (dist : ℚ) :
    ∀ (ds rivids : List Int) (dists : List ℚ) (net : ℚ),
      rivids.length ≤ num →
      (get_rivids_aux shp lens num dist ds rivids dists net).1.length ≤ num := by
  intro ds
  induction ds with
  | nil => intro rivids dists net h; simpa [get_rivids_aux] using h
  | cons r rest ih =>
    intro rivids dists net h
    unfold get_rivids_aux
    split_ifs with h1 h2
    · exact h
    · dsimp only
      split_ifs with h3
      · refine ih _ _ _ ?_
        simp only [List.length_append, List.length_singleton]
        omega
      · exact ih _ _ _ h
    · exact h

theorem get_rivids_aux_dists_lt (shp : List Int) (lens : List ℚ) (num : Nat)
    (dist : ℚ) :
    ∀ (ds rivids : List Int) (dists : List ℚ) (net : ℚ),
      rivids.length = dists.length →
      (∀ i < dists.length, (i : ℚ) * dist < dists.getD i 0) →
      ∀ i < (get_rivids_aux shp lens num dist ds rivids dists net).2.length,
        (i : ℚ) * dist <
          (get_rivids_aux shp lens num dist ds rivids dists net).2.getD i 0 := by
  intro ds
  induction ds with
  | nil =>
    intro rivids dists net hlen h
    simpa [get_rivids_aux] using h
  | cons r rest ih =>
    intro rivids dists net hlen h
    unfold get_rivids_aux
    split_ifs with h1 h2
    · simpa using h
    · dsimp only
      split_ifs with h3
      · refine ih _ _ _ (by simp [hlen]) ?_
        intro i hi
        rw [List.length_append, List.length_singleton] at hi
        rcases Nat.lt_or_ge i dists.length with hlt | hge
        · rw [List.getD_append _ _ _ _ hlt]
          exact h i hlt
        · have hie : i = dists.length := by omega
          rw [List.getD_append_right _ _ _ _ hge, hie]
          simpa [hlen] using h3
      · exact ih _ _ _ hlen h
    · simpa using h

theorem get_rivids_aux_cumsum (shp : List Int) (lens : List ℚ) (num : Nat)
    (dist : ℚ) :
    ∀ (ds rivids : List Int) (dists : List ℚ) (net : ℚ) (pre full : List Int),
      full = pre ++ ds →
      net = ((pre.map (lengthOf shp lens)).sum) →
      (∀ i < dists.length, ∃ k, 0 < k ∧ k ≤ pre.length ∧
        dists.getD i 0 = ((full.take k).map (lengthOf shp lens)).sum) →
      ∀ i < (get_rivids_aux shp lens num dist ds rivids dists net).2.length,
        ∃ k, 0 < k ∧ k ≤ full.length ∧
          (get_rivids_aux shp lens num dist ds rivids dists net).2.getD i 0 =
            ((full.take k).map (lengthOf shp lens)).sum := by
  intro ds
  induction ds with
  | nil =>
    intro rivids dists net pre full hfull hnet h i hi
    rw [List.append_nil] at hfull
    subst hfull
    rcases h i (by simpa [get_rivids_aux] using hi) with ⟨k, hk0, hkle, hke⟩
    exact ⟨k, hk0, hkle, by simpa [get_rivids_aux] using hke⟩
  | cons r rest ih =>
    intro rivids dists net pre full hfull hnet h
    have hlenfull : pre.length ≤ full.length := by
      rw [hfull, List.length_append]
      omega
    unfold get_rivids_aux
    split_ifs with h1 h2
    · intro i hi
      rcases h i hi with ⟨k, hk0, hkle, hke⟩
      exact ⟨k, hk0, le_trans hkle hlenfull, hke⟩
    · dsimp only
      have htake : full.take (pre.length + 1) = pre ++ [r] := by
        rw [hfull, List.take_append_eq_append_take,
          List.take_of_length_le (by omega),
          show pre.length + 1 - pre.length = 1 by omega]
        rfl
      have hnet' : net + lengthOf shp lens r =
          (((pre ++ [r]).map (lengthOf shp lens)).sum) := by
        rw [List.map_append, List.sum_append, hnet]
        simp
      split_ifs with h3
      · refine ih _ _ _ (pre ++ [r]) full (by rw [hfull]; simp) hnet' ?_
        intro i hi
        rw [List.length_append, List.length_singleton] at hi
        rcases Nat.lt_or_ge i dists.length with hlt | hge
        · rcases h i hlt with ⟨k, hk0, hkle, hke⟩
          refine ⟨k, hk0, ?_, ?_⟩
          · rw [List.length_append]
            omega
          · rwa [List.getD_append _ _ _ _ hlt]
        · have hie : i = dists.length := by omega
          refine ⟨pre.length + 1, by omega, by simp, ?_⟩
          rw [List.getD_append_right _ _ _ _ hge, hie, htake]
          simpa using hnet'
      · refine ih _ _ _ (pre ++ [r]) full (by rw [hfull]; simp) hnet' ?_
        intro i hi
        rcases h i hi with ⟨k, hk0, hkle, hke⟩
        refine ⟨k, hk0, ?_, hke⟩
        rw [List.length_append]
        omega
    · intro i hi
      rcases h i hi with ⟨k, hk0, hkle, hke⟩
      exact ⟨k, hk0, le_trans hkle hlenfull, hke⟩

theorem get_rivids_aux_mem (shp : List Int) (lens : List ℚ) (num : Nat)
    (dist : ℚ) :
    ∀ (ds rivids : List Int) (dists : List ℚ) (net : ℚ),
      (∀ x ∈ rivids, x ∈ shp) →
      ∀ x ∈ (get_rivids_aux shp lens num dist ds rivids dists net).1,
        x ∈ shp := by
  intro ds
  induction ds with
  | nil => intro rivids dists net h; simpa [get_rivids_aux] using h
  | cons r rest ih =>
    intro rivids dists net h
    unfold get_rivids_aux
    split_ifs with h1 h2
    · exact h
    · dsimp only
      split_ifs with h3
      · refine ih _ _ _ ?_
        intro x hx
        rcases List.mem_append.mp hx with hx | hx
        · exact h x hx
        · have hxr : x = r := by simpa using hx
          rw [hxr]
          exact h2
      · exact ih _ _ _ h
    · exact h

theorem get_rivids_aux_takeWhile (shp : List Int) (lens : List ℚ) (num : Nat)
    (dist : ℚ) :
    ∀ (ds rivids : List Int) (dists : List ℚ) (net : ℚ),
      get_rivids_aux shp lens num dist ds rivids dists net =
        get_rivids_aux shp lens num dist
          (ds.takeWhile (fun x => decide (x ∈ shp))) rivids dists net := by
  intro ds
  induction ds with
  | nil => intro rivids dists net; rfl
  | cons r rest ih =>
    intro rivids dists net
    by_cases hr : r ∈ shp
    · rw [List.takeWhile_cons, if_pos (by simpa using hr)]
      show get_rivids_aux shp lens num dist (r :: rest) rivids dists net =
        get_rivids_aux shp lens num dist
          (r :: rest.takeWhile (fun x => decide (x ∈ shp))) rivids dists net
      unfold get_rivids_aux
      split_ifs with h1
      · rfl
      · dsimp only
        split_ifs with h3
        · exact ih _ _ _
        · exact ih _ _ _
    · rw [List.takeWhile_cons, if_neg (by simpa using hr)]
      show get_rivids_aux shp lens num dist (r :: rest) rivids dists net =
        get_rivids_aux shp lens num dist [] rivids dists net
      unfold get_rivids_aux
      split_ifs with h1
      · rfl
      · rfl

/-- C2: `get_rivids_along_downstream` returns two lists of equal length, at
most `num_rivids` long; each returned distance is the cumulative sum of the
shapefile lengths of the reaches walked so far (a nonempty prefix of the
downstream list); the i-th returned distance strictly exceeds `i * dist`;
every returned id is in the shapefile id list; and the walk only ever sees
the prefix of the downstream list before the first id absent from the
shapefile id list. -/
theorem get_rivids_along_downstream_spec (downstream shp : List Int)
    (lens : List ℚ) (num : Nat) (dist : ℚ) :
    (get_rivids_along_downstream downstream shp lens num dist).1.length =
      (get_rivids_along_downstream downstream shp lens num dist).2.length ∧
    (get_rivids_along_downstream downstream shp lens num dist).1.length ≤ num ∧
    (∀ i < (get_rivids_along_downstream downstream shp lens num dist).2.length,
      (i : ℚ) * dist <
        (get_rivids_along_downstream downstream shp lens num dist).2.getD i 0) ∧
    (∀ i < (get_rivids_along_downstream downstream shp lens num dist).2.length,
      ∃ k, 0 < k ∧ k ≤ downstream.length ∧
        (get_rivids_along_downstream downstream shp lens num dist).2.getD i 0 =
          ((downstream.take k).map (lengthOf shp lens)).sum) ∧
    (∀ x ∈ (get_rivids_along_downstream downstream shp lens num dist).1,
      x ∈ shp) ∧
    get_rivids_along_downstream downstream shp lens num dist =
      get_rivids_along_downstream
        (downstream.takeWhile (fun x => decide (x ∈ shp))) shp lens num dist := by
  refine ⟨?_, ?_, ?_, ?_, ?_, ?_⟩
  · exact get_rivids_aux_len_eq shp lens num dist downstream [] [] 0 rfl
  · exact get_rivids_aux_len_le shp lens num dist downstream [] [] 0
      (by simp)
  · exact get_rivids_aux_dists_lt shp lens num dist downstream [] [] 0 rfl
      (by simp)
  · exact get_rivids_aux_cumsum shp lens num dist downstream [] [] 0 []
      downstream (by simp) (by simp) (by simp)
  · exact get_rivids_aux_mem shp lens num dist downstream [] [] 0 (by simp)
  · exact get_rivids_aux_takeWhile shp lens num dist downstream [] [] 0

/-- Witness for `get_rivids_along_downstream_spec`: on a one-reach
downstream list the first (0-th) returned distance exceeds `0 * dist` and
the returned id lies in the shapefile list. -/
theorem get_rivids_along_downstream_spec_witness :
    ((0 : ℚ) * 1 <
      (get_rivids_along_downstream [7] [7] [5] 3 1).2.getD 0 0) ∧
    (7 : Int) ∈ ([7] : List Int) :=
  ⟨(get_rivids_along_downstream_spec [7] [7] [5] 3 1).2.2.1 0
      (by norm_num [get_rivids_along_downstream, get_rivids_aux, lengthOf]),
    (get_rivids_along_downstream_spec [7] [7] [5] 3 1).2.2.2.2.1 7
      (by norm_num [get_rivids_along_downstream, get_rivids_aux, lengthOf])⟩

/-! Helper lemmas about the downstream walk of `choose_downstream`. -/

theorem connLookup_isSome_mem (conn : Conn) (k : Int) :
    (connLookup conn k).isSome → k ∈ conn.map Prod.fst := by
  intro h
  unfold connLookup at h
  cases hf : (conn.find? fun p => p.1 == k) with
  | none => rw [hf] at h; simp at h
  | some p =>
    have hp : p.1 = k := by simpa using List.find?_some hf
    rw [← hp]
    exact List.mem_map_of_mem Prod.fst (List.mem_of_find?_eq_some hf)

theorem traceFrom_succ (conn : Conn) (r : Int) (n : Nat) :
    traceFrom conn r (n + 1) = (traceFrom conn r n).bind (fstep conn) := rfl

theorem traceFrom_shift (conn : Conn) (r b : Int)
    (hstep : fstep conn r = some b) :
    ∀ n, traceFrom conn b n = traceFrom conn r (n + 1) := by
  intro n
  induction n with
  | zero =>
    rw [traceFrom_succ]
    simp [traceFrom, hstep]
  | succ n ih =>
    rw [traceFrom_succ, traceFrom_succ, ih]

theorem traceFrom_key (conn : Conn) (r : Int) (n : Nat) (v : Int)
    (hv : traceFrom conn r n = some v)
    (hnext : (traceFrom conn r (n + 1)).isSome) :
    v ∈ conn.map Prod.fst := by
  rw [traceFrom_succ, hv] at hnext
  simp only [Option.some_bind] at hnext
  apply connLookup_isSome_mem
  unfold fstep at hnext
  cases hc : connLookup conn v with
  | none => rw [hc] at hnext; simp at hnext
  | some l => simp

theorem trace_stops (conn : Conn) (r : Int) (hinj : noRevisit conn r) :
    ∃ n ≤ conn.length, traceFrom conn r (n + 1) = none := by
  by_contra hcon
  push_neg at hcon
  have hdef : ∀ i ≤ conn.length, (traceFrom conn r (i + 1)).isSome :=
    fun i hi => Option.ne_none_iff_isSome.mp (hcon i hi)
  have hdefall : ∀ i ≤ conn.length + 1, (traceFrom conn r i).isSome := by
    intro i hi
    cases i with
    | zero => simp [traceFrom]
    | succ j => exact hdef j (by omega)
  set g : Nat → Int := fun i => (traceFrom conn r i).getD 0 with hg
  have hsome : ∀ i ≤ conn.length + 1, traceFrom conn r i = some (g i) := by
    intro i hi
    obtain ⟨v, hv⟩ := Option.isSome_iff_exists.mp (hdefall i hi)
    rw [hv, hg]
    simp [hv]
  set L : List Int := (List.range (conn.length + 1)).map g with hL
  have hnodup : L.Nodup := by
    refine List.Nodup.map_on ?_ (List.nodup_range _)
    intro i hi j hj he
    by_contra hne
    rw [List.mem_range] at hi hj
    have := hinj i (by omega) j (by omega) hne
      (hdefall i (by omega))
    apply this
    rw [hsome i (by omega), hsome j (by omega), he]
  have hsub : L ⊆ conn.map Prod.fst := by
    intro x hx
    rw [hL] at hx
    rcases List.mem_map.mp hx with ⟨i, hi, he⟩
    rw [List.mem_range] at hi
    rw [← he]
    exact traceFrom_key conn r i (g i) (hsome i (by omega))
      (hdef i (by omega))
  have hlen : L.length ≤ (conn.map Prod.fst).length :=
    (List.subperm_of_subset hnodup hsub).length_le
  rw [hL, List.length_map, List.length_range, List.length_map] at hlen
  omega

theorem choose_downstream_follows (conn : Conn) :
    ∀ (m fuel : Nat) (st : List Int) (r : Int), m < fuel →
      (∀ i ≤ m, (traceFrom conn r i).isSome) →
      (∀ a, traceFrom conn r m = some a → connLookup conn a = none) →
      choose_downstream conn fuel st r =
        some (st ++ (List.range (m + 1)).map
          (fun i => (traceFrom conn r i).getD 0)) := by
  intro m
  induction m with
  | zero =>
    intro fuel st r hfuel hdef hsink
    have hr : connLookup conn r = none := hsink r rfl
    cases fuel with
    | zero => omega
    | succ n =>
      unfold choose_downstream
      rw [hr]
      simp [List.range_succ, traceFrom]
  | succ m ih =>
    intro fuel st r hfuel hdef hsink
    have h1 : (traceFrom conn r 1).isSome := hdef 1 (by omega)
    have h1' : traceFrom conn r 1 = fstep conn r := by
      rw [traceFrom_succ]
      simp [traceFrom]
    obtain ⟨b, hb⟩ := Option.isSome_iff_exists.mp h1
    have hstep : fstep conn r = some b := by rw [← h1']; exact hb
    obtain ⟨l, hl, hhead⟩ : ∃ l, connLookup conn r = some l ∧
        l.head? = some b := by
      unfold fstep at hstep
      cases hc : connLookup conn r with
      | none => rw [hc] at hstep; simp at hstep
      | some l =>
        rw [hc] at hstep
        exact ⟨l, rfl, by simpa using hstep⟩
    obtain ⟨tl, hltl⟩ : ∃ tl, l = b :: tl := by
      cases l with
      | nil => simp at hhead
      | cons x tl =>
        have hx : x = b := by simpa using hhead
        exact ⟨tl, by rw [hx]⟩
    have hshift := traceFrom_shift conn r b hstep
    cases fuel with
    | zero => omega
    | succ n =>
      unfold choose_downstream
      rw [hl, hltl]
      dsimp only
      rw [ih n (st ++ [r]) b (by omega)
        (fun i hi => by rw [hshift i]; exact hdef (i + 1) (by omega))
        (fun a ha => hsink a (by rw [← hshift m]; exact ha))]
      have hlist : (List.range (m + 1 + 1)).map
          (fun i => (traceFrom conn r i).getD 0) =
          r :: (List.range (m + 1)).map
            (fun i => (traceFrom conn b i).getD 0) := by
        rw [List.range_succ_eq_map, List.map_cons, List.map_map]
        refine congrArg₂ List.cons rfl ?_
        refine List.map_congr_left ?_
        intro i _
        rw [Function.comp_apply, hshift i]
      rw [hlist]
      simp

/-- C1 counterexample: the claim's precondition (no id is revisited when
following first entries) holds for the mapping `{5: []}` started at 5, yet
`choose_downstream` never returns: the Python loop body evaluates
`connectivity[5][0]` on the empty list and raises `IndexError` (modelled as
`none` for every fuel).  The claim therefore needs the additional
precondition that every visited key has a nonempty list. -/
theorem choose_downstream_stuck_counterexample :
    noRevisit [((5 : Int), ([] : List Int))] 5 ∧
    ∀ (fuel : Nat) (st : List Int),
      choose_downstream [((5 : Int), ([] : List Int))] fuel st 5 = none := by
  constructor
  · decide
  · intro fuel st
    cases fuel with
    | zero => rfl
    | succ n => rfl

/-- C1 (amended): from any starting reach id, if following first entries
never revisits an id and every visited id that is a key of the mapping has
a nonempty list, then `choose_downstream` (with fuel `conn.length + 1`,
which suffices) terminates and returns the downstream path: the walk's ids
in order, starting with the given id and ending at the first id that is not
a key of the mapping. -/
theorem choose_downstream_terminates (conn : Conn) (r : Int)
    (h1 : noRevisit conn r) (h2 : noEmptyLists conn r) :
    ∃ st', choose_downstream conn (conn.length + 1) [] r = some st' ∧
      st' ≠ [] ∧ st'.length ≤ conn.length + 1 ∧
      (∀ i < st'.length, traceFrom conn r i = some (st'.getD i 0)) ∧
      connLookup conn (st'.getD (st'.length - 1) 0) = none := by
  obtain ⟨n, hnle, hnone⟩ := trace_stops conn r h1
  have hex : ∃ k, traceFrom conn r (k + 1) = none := ⟨n, hnone⟩
  have hmn : Nat.find hex ≤ n := Nat.find_min' hex hnone
  set m := Nat.find hex with hm
  have hmle : m ≤ conn.length := le_trans hmn hnle
  have hspec : traceFrom conn r (m + 1) = none := Nat.find_spec hex
  have hdef : ∀ i ≤ m, (traceFrom conn r i).isSome := by
    intro i hi
    cases i with
    | zero => simp [traceFrom]
    | succ j =>
      have hj : j < m := by omega
      exact Option.ne_none_iff_isSome.mp (Nat.find_min hex hj)
  have hsink : ∀ a, traceFrom conn r m = some a →
      connLookup conn a = none := by
    intro a ha
    have hfa : fstep conn a = none := by
      have hs := hspec
      rw [traceFrom_succ, ha] at hs
      simpa using hs
    unfold fstep at hfa
    cases hc : connLookup conn a with
    | none => rfl
    | some l =>
      rw [hc] at hfa
      cases l with
      | cons x tl => simp at hfa
      | nil =>
        exfalso
        refine h2 m (by omega) ?_
        rw [ha]
        simp only [Option.some_bind]
        rw [hc]
  have hrun := choose_downstream_follows conn m (conn.length + 1) [] r
    (by omega) hdef hsink
  refine ⟨_, hrun, ?_, ?_, ?_, ?_⟩
  · simp
  · simp
    omega
  · intro i hi
    rw [List.nil_append, List.length_map, List.length_range] at hi
    have hgd : ((List.range (m + 1)).map
        (fun i => (traceFrom conn r i).getD 0)).getD i 0 =
        (traceFrom conn r i).getD 0 := by
      rw [List.getD_eq_getElem _ _ (by simpa using hi), List.getElem_map,
        List.getElem_range]
    rw [List.nil_append, hgd]
    obtain ⟨v, hv⟩ := Option.isSome_iff_exists.mp (hdef i (by omega))
    rw [hv]
    rfl
  · rw [List.nil_append, List.length_map, List.length_range]
    have hgd : ((List.range (m + 1)).map
        (fun i => (traceFrom conn r i).getD 0)).getD (m + 1 - 1) 0 =
        (traceFrom conn r m).getD 0 := by
      rw [List.getD_eq_getElem _ _ (by simp), List.getElem_map,
        List.getElem_range]
      norm_num
    rw [hgd]
    obtain ⟨v, hv⟩ := Option.isSome_iff_exists.mp (hdef m (by omega))
    rw [hv]
    exact hsink v hv

/-- Witness for `choose_downstream_terminates` on the two-key mapping
`{1: [2], 2: [3]}` started at reach 1. -/
theorem choose_downstream_terminates_witness :
    ∃ st', choose_downstream [((1 : Int), [2]), (2, [3])]
        (([((1 : Int), [2]), (2, [3])] : Conn).length + 1) [] 1 = some st' ∧
      st' ≠ [] ∧
      st'.length ≤ ([((1 : Int), [2]), (2, [3])] : Conn).length + 1 ∧
      (∀ i < st'.length,
        traceFrom [((1 : Int), [2]), (2, [3])] 1 i = some (st'.getD i 0)) ∧
      connLookup [((1 : Int), [2]), (2, [3])] (st'.getD (st'.length - 1) 0) =
        none :=
  choose_downstream_terminates [((1 : Int), [2]), (2, [3])] 1
    (by decide) (by decide)

end RRR
